import Mathlib

/-!
# Verification of `docsman.jsonschema.jsonschema`

Shallow embedding of the pure schema-walking and Markdown-rendering
functions of `src/docsman/jsonschema/jsonschema.py`, together with proofs
of the specified properties.

Modelling conventions:
* Python's in-memory JSON-like values (nested dicts/lists read from YAML)
  are modelled by the mutual inductive types `JSON` / `JArr` / `JObj`;
  a Python `dict` is the insertion-ordered association list `JObj`.
  Python numbers are restricted to integers (the only numeric key the
  claims touch is `minItems`, an integer).
* `key in schema` / `schema[key]` / `schema.get(key)` are modelled by the
  ordered lookup `lk`.
* Functions that recurse through the tree are written with an explicit
  fuel argument (structural recursion on the fuel keeps every definition
  computable and kernel-reducible); the public wrapper passes
  `JSON.size schema` as fuel, which strictly exceeds the recursion depth,
  so on the wrapper's own input the fuel is never exhausted.
* Python exceptions (KeyError / IndexError / TypeError / ValueError) are
  modelled by `Option`/`Except` results; `none` / `.error` marks an input
  on which the Python function raises.
* The external collaborators declared out of scope by the design
  (the YAML serializer `pyserials.write.to_yaml_string` composed with the
  `"\n..."` suffix strip, and the slugifier `markitup.txt.slug`) are taken
  as parameters (`ser`, `slug`) of the functions that use them, so every
  theorem about those functions quantifies over them.
-/

/-! ## The data model and the embedded functions -/

mutual

/-- A JSON-like value: the in-memory schema representation the module
operates on. -/
inductive JSON where
  | null
  | bool (b : Bool)
  | num (n : Int)
  | str (s : String)
  | arr (xs : JArr)
  | obj (kvs : JObj)
  deriving DecidableEq

/-- A JSON array (Python `list`). -/
inductive JArr where
  | nil
  | cons (hd : JSON) (tl : JArr)
  deriving DecidableEq

/-- A JSON object (Python `dict`), as an insertion-ordered association
list of key/value pairs. -/
inductive JObj where
  | nil
  | cons (key : String) (val : JSON) (tl : JObj)
  deriving DecidableEq

end

mutual

/-- Node count of a `JSON` tree; used as recursion fuel. -/
def JSON.size : JSON → Nat
  | .null => 1
  | .bool _ => 1
  | .num _ => 1
  | .str _ => 1
  | .arr xs => 1 + xs.size
  | .obj kvs => 1 + kvs.size

/-- Node count of a `JArr`. -/
def JArr.size : JArr → Nat
  | .nil => 1
  | .cons hd tl => 1 + hd.size + tl.size

/-- Node count of a `JObj`. -/
def JObj.size : JObj → Nat
  | .nil => 1
  | .cons _ v tl => 1 + v.size + tl.size

end

/-- The elements of a JSON array, as a Lean list. -/
def JArr.toList : JArr → List JSON
  | .nil => []
  | .cons h t => h :: t.toList

/-- Rebuild a JSON array from a Lean list. -/
def JArr.ofList : List JSON → JArr
  | [] => .nil
  | h :: t => .cons h (JArr.ofList t)

/-- The entries of a JSON object, as a Lean association list. -/
def JObj.toList : JObj → List (String × JSON)
  | .nil => []
  | .cons k v t => (k, v) :: t.toList

/-- Rebuild a JSON object from a Lean association list. -/
def JObj.ofList : List (String × JSON) → JObj
  | [] => .nil
  | (k, v) :: t => .cons k v (JObj.ofList t)

/-- Ordered lookup: models Python `schema[key]` / `schema.get(key)` /
`key in schema` on an insertion-ordered `dict`. -/
def lk (key : String) : JObj → Option JSON
  | .nil => none
  | .cons k v t => if k == key then some v else lk key t

/-- `INLINE_MAX_LINE_LENGTH` from the source. -/
def INLINE_MAX_LINE_LENGTH : Nat := 50

/-- The structural keywords, in the fixed order `needs_separate_section`
iterates them. -/
def structKeys : List String :=
  ["properties", "additionalProperties", "items", "not", "if", "then", "else",
   "anyOf", "oneOf", "allOf"]

/-- `get_subschemas(schema, key)` from the source: path labels and direct
sub-schema nodes for one structural keyword.  `none` models the Python
call raising: `KeyError` when the key is absent, `AttributeError` when a
`properties` value is not a mapping, and a non-mapping schema
(`TypeError`).  In the final branch (reached for `anyOf`/`oneOf`/`allOf`)
the source does `range(1, len(schema[key])+1)` and returns `schema[key]`
itself as the node sequence; a value there that is not a sequence of
nodes is outside the data model and is also mapped to `none`. -/
def get_subschemas (schema : JSON) (key : String) : Option (List String × List JSON) :=
  match schema with
  | .obj kvs =>
    if key == "properties" then
      match lk key kvs with
      | some (.obj props) => some (props.toList.map Prod.fst, props.toList.map Prod.snd)
      | _ => none
    else if key == "additionalProperties" then
      match lk key kvs with
      | some (.obj w) => some (["*"], [JSON.obj w])
      | some _ => some ([], [])
      | none => none
    else if key == "items" then
      match lk key kvs with
      | some v => some (["[i]"], [v])
      | none => none
    else if ["not", "if", "then", "else"].contains key then
      match lk key kvs with
      | some v => some ([key], [v])
      | none => none
    else
      match lk key kvs with
      | some (.arr xs) =>
        some ((List.range xs.toList.length).map fun i => key ++ "[" ++ toString (i + 1) ++ "]",
              xs.toList)
      | _ => none
  | _ => none

/-- Fuel-indexed worker for `needs_separate_section`.  The logic mirrors
the source: a node with `$ref` is immediately `false`; otherwise, for
each structural keyword present (in the fixed source order), the result
is `true` as soon as the depth budget is reached, and otherwise the check
recurses into every direct sub-schema at depth `rec + 1`.  A node that is
not a mapping has no keys and contributes `false` (such nodes are outside
the data model: the Python code would raise on them, see `wfF`). -/
def nssF : Nat → JSON → Nat → Nat → Bool
  | 0, _, _, _ => false
  | fuel + 1, .obj kvs, max_nesting, rec =>
    if (lk "$ref" kvs).isSome then false
    else
      structKeys.any fun key =>
        (lk key kvs).isSome &&
        (if max_nesting ≤ rec then true
         else
           match get_subschemas (.obj kvs) key with
           | some p => p.2.any fun s => nssF fuel s max_nesting (rec + 1)
           | none => false)
  | _ + 1, _, _, _ => false

/-- `needs_separate_section(schema, max_nesting=2, _rec=0)` from the
source.  `JSON.size schema` strictly exceeds the nesting depth of
`schema`, so the fuel never runs out on this input. -/
def needs_separate_section (schema : JSON) (max_nesting : Nat := 2) (rec : Nat := 0) : Bool :=
  nssF schema.size schema max_nesting rec

/-- Is the value a mapping (`dict`)? -/
def isObj : JSON → Bool
  | .obj _ => true
  | _ => false

/-- Does the node contain the key `$ref`? (`"$ref" in schema`) -/
def hasRef : JSON → Bool
  | .obj kvs => (lk "$ref" kvs).isSome
  | _ => false

/-- Does the node contain at least one structural keyword? -/
def hasStructKey : JSON → Bool
  | .obj kvs => structKeys.any fun k => (lk k kvs).isSome
  | _ => false

/-- Fuel-indexed well-formedness of a schema node with respect to the
structural traversal: the node is a mapping and, for every structural
keyword present, `get_subschemas` succeeds and yields sub-schemas that
are themselves well-formed mappings.  This carves out exactly the inputs
on which the Python traversal performs no illegal operation (it indexes
only dicts and recurses only into dicts), i.e. the nodes conforming to
the spec's data model. -/
def wfF : Nat → JSON → Bool
  | 0, _ => false
  | fuel + 1, .obj kvs =>
    structKeys.all fun key =>
      !(lk key kvs).isSome ||
      (match get_subschemas (.obj kvs) key with
       | some p => p.2.all fun s => isObj s && wfF fuel s
       | none => false)
  | _ + 1, _ => false

/-- Well-formedness of a schema node (see `wfF`). -/
def wfSchema (s : JSON) : Bool := wfF s.size s

/-- The list of composition keywords. -/
def compKeys : List String := ["anyOf", "oneOf", "allOf"]

/-- Fuel-indexed check that no composition keyword (`anyOf`/`oneOf`/
`allOf`) occurs as a key anywhere in the tree. -/
def noCompF : Nat → JSON → Bool
  | 0, _ => false
  | fuel + 1, .obj kvs => kvs.toList.all fun kv => !(compKeys.contains kv.1) && noCompF fuel kv.2
  | fuel + 1, .arr xs => xs.toList.all fun x => noCompF fuel x
  | _ + 1, _ => true

/-- No composition keyword occurs anywhere in the tree (see `noCompF`). -/
def noComp (s : JSON) : Bool := noCompF s.size s

/-- `ReachAt s d t`: starting from `s`, the structural traversal of
`needs_separate_section` can reach node `t` at nesting depth `d`: each
step starts at a mapping without `$ref` and descends into one of the
direct sub-schemas delivered by `get_subschemas` for a present
structural keyword. -/
inductive ReachAt : JSON → Nat → JSON → Prop where
  | refl (s : JSON) : ReachAt s 0 s
  | step {s : JSON} (key : String) (p : List String × List JSON) {u t : JSON} {d : Nat} :
      hasRef s = false → key ∈ structKeys → get_subschemas s key = some p →
      u ∈ p.2 → ReachAt u d t → ReachAt s (d + 1) t

/-- `array_items_are_required(schema)` from the source:
`"minItems" in schema and schema["minItems"] > 0`.  A non-integer
`minItems` value is outside the data model (Python would compare it with
`0` and may raise); it is mapped to `false`, and the claims only
quantify over integer values. -/
def array_items_are_required (schema : JSON) : Bool :=
  match schema with
  | .obj kvs =>
    match lk "minItems" kvs with
    | some (.num n) => decide (0 < n)
    | _ => false
  | _ => false

/-- `subschema_is_required(schema, key, sub_key="")` from the source.
For `key == "properties"` the source tests `sub_key in
schema.get("required", [])`; Python's `in` on a list compares with `==`,
which for a string `sub_key` matches exactly the equal string elements.
A non-sequence `required` value is outside the data model and mapped to
`false`. -/
def subschema_is_required (schema : JSON) (key : String) (sub_key : String := "") : Bool :=
  if key == "properties" then
    match schema with
    | .obj kvs =>
      match lk "required" kvs with
      | some (.arr xs) => xs.toList.any fun x =>
          match x with
          | .str s => s == sub_key
          | _ => false
      | _ => false
    | _ => false
  else if key == "items" then
    array_items_are_required schema
  else
    false

/-- The documentation-metadata keys stripped by `clean_schema`, in source
order. -/
def metaKeys : List String :=
  ["title", "description", "examples", "root_key", "default_auto", "default"]

/-- Fuel-indexed worker for `clean_schema`, covering the mapping and
sequence branches of the source (the scalar branch raises and is handled
by the wrapper).  For a mapping it iterates the entries in order,
skipping metadata keys unless `is_prop_dict`, and recursing into mapping
and sequence values — a mapping value is a property dict exactly when it
sits under the key `properties`; for a sequence it recurses into
mapping/sequence elements and keeps scalars. -/
def clean_schemaF : Nat → JSON → Bool → JSON
  | 0, s, _ => s
  | fuel + 1, .obj kvs, is_prop_dict =>
    .obj (JObj.ofList
      ((kvs.toList.filter fun kv => !(metaKeys.contains kv.1 && !is_prop_dict)).map
        fun kv =>
          (kv.1,
           match kv.2 with
           | .obj w => clean_schemaF fuel (.obj w) (kv.1 == "properties")
           | .arr xs => clean_schemaF fuel (.arr xs) false
           | v => v)))
  | fuel + 1, .arr xs, _ =>
    .arr (JArr.ofList (xs.toList.map fun x =>
      match x with
      | .obj w => clean_schemaF fuel (.obj w) false
      | .arr ys => clean_schemaF fuel (.arr ys) false
      | v => v))
  | _ + 1, s, _ => s

/-- How `clean_schema` transforms the value found under key `k` of a
mapping being cleaned: mapping and sequence values are cleaned
recursively (a mapping under `properties` as a property dict), scalars
are kept as they are. -/
def clean_value (k : String) (v : JSON) : JSON :=
  match v with
  | .obj w => clean_schemaF (JSON.size (.obj w)) (.obj w) (k == "properties")
  | .arr xs => clean_schemaF (JSON.size (.arr xs)) (.arr xs) false
  | v => v

/-- `clean_schema(schema, is_prop_dict=False)` from the source: clean a
mapping or sequence, and raise `ValueError` on any other value. -/
def clean_schema (schema : JSON) (is_prop_dict : Bool := false) : Except String JSON :=
  match schema with
  | .obj _ => .ok (clean_schemaF schema.size schema is_prop_dict)
  | .arr _ => .ok (clean_schemaF schema.size schema is_prop_dict)
  | _ => .error "Unsupported schema type"

/-- Fuel-indexed check that no documentation-metadata key occurs as a key
anywhere in the tree. -/
def noMetaF : Nat → JSON → Bool
  | 0, _ => false
  | fuel + 1, .obj kvs => kvs.toList.all fun kv => !(metaKeys.contains kv.1) && noMetaF fuel kv.2
  | fuel + 1, .arr xs => xs.toList.all fun x => noMetaF fuel x
  | _ + 1, _ => true

/-- No documentation-metadata key occurs anywhere in the tree. -/
def noMeta (s : JSON) : Bool := noMetaF s.size s

/-- Python `str.split(sep)` for a single-character separator, over the
character list of the string: splitting on every occurrence of `sep`,
keeping empty segments, and returning one segment when `sep` does not
occur (so always at least one segment). -/
def pySplit (sep : Char) : List Char → List (List Char)
  | [] => [[]]
  | c :: rest =>
    let r := pySplit sep rest
    if c == sep then [] :: r
    else
      match r with
      | [] => [[c]]
      | h :: t => (c :: h) :: t

/-- `ref_name(ref)` from the source.  `parts = ref.split("#")`; when
there is no `#`, the result is `parts[0].split(".")[-2]`, where the
negative index raises `IndexError` unless there are at least two
dot-segments (modelled by `none`); otherwise the result is
`parts[-1].split("/")[-1]`, which always succeeds because `split` never
returns an empty list. -/
def ref_name (ref : String) : Option String :=
  let parts := pySplit '#' ref.toList
  if parts.length == 1 then
    let segs := pySplit '.' (parts.headD [])
    if 2 ≤ segs.length then some (String.mk (segs.dropLast.getLastD [])) else none
  else
    some (String.mk ((pySplit '/' (parts.getLastD [])).getLastD []))

/-- Modelled from the spec: Python `str()` rendering of a scalar value,
as used by the f-string in `type_to_md`'s list branch.  Container values
are abbreviated here (a `type` list holds type-name strings in the data
model, and no claim evaluates the rendering of a non-scalar entry). -/
def pyStr : JSON → String
  | .str s => s
  | .bool true => "True"
  | .bool false => "False"
  | .num n => toString n
  | .null => "None"
  | .arr _ => "[...]"
  | .obj _ => "\x7b...\x7d"

/-- `type_to_md(schema, key="type", tag_prefix_refs="")` from the source,
parameterized by the external slugifier `slug` (`markitup.txt.slug`).
`.error` models the Python call raising: the final `ValueError` for an
unsupported `type` value, and — in the `$ref` branch, which takes
priority — the `IndexError` raised inside `ref_name` when the reference
contains neither `#` nor `.` (a non-string `$ref` would raise
`AttributeError` inside `ref_name`).  `schema.get(key)` returns Python
`None` both when the key is absent and when its value is null, so a null
`type` falls into the `complex`/`any` branch. -/
def type_to_md (slug : String → String) (schema : JSON) (key : String := "type")
    (tag_prefix_refs : String := "") : Except String (String × Bool) :=
  match schema with
  | .obj kvs =>
    match lk "$ref" kvs with
    | some (.str ref) =>
      match ref_name ref with
      | some name =>
        .ok ("[`" ++ name ++ "`](#" ++ slug (tag_prefix_refs ++ "-" ++ ref) ++ ")", true)
      | none => .error "IndexError"
    | some _ => .error "AttributeError"
    | none =>
      match lk key kvs with
      | some (.str dtype) => .ok ("`" ++ dtype ++ "`", true)
      | some (.arr vs) =>
        .ok (String.intercalate " or " (vs.toList.map fun v => "`" ++ pyStr v ++ "`"), true)
      | none | some .null =>
        if ["anyOf", "oneOf", "allOf", "not", "if"].any fun k => (lk k kvs).isSome then
          .ok ("`complex`", true)
        else
          .ok ("`any`", true)
      | some _ => .error "Unsupported value for type"
  | _ => .error "TypeError"

/-- `_text_can_be_inline(text)` from the source (the leading underscore
is dropped): no line break and at most `INLINE_MAX_LINE_LENGTH`
characters. -/
def text_can_be_inline (text : String) : Bool :=
  !(text.toList.contains '\n') && decide (text.length ≤ INLINE_MAX_LINE_LENGTH)

/-- Modelled from the spec: `markitup`'s comma-separated list used with
`as_html=False` — the items joined by `", "`, each wrapped in backticks
when `item_as_code`. -/
def comma_list (items : List String) (item_as_code : Bool) : String :=
  String.intercalate ", " (items.map fun s => if item_as_code then "`" ++ s ++ "`" else s)

/-- Modelled from the spec: `markitup`'s block-level bulleted list with
code-formatted items. -/
def normal_list (items : List String) : String :=
  String.intercalate "\n" (items.map fun s => "- `" ++ s ++ "`")

/-- Modelled from the spec: a fenced Markdown code block. -/
def code_block (text : String) : String :=
  "```\n" ++ text ++ "\n```"

/-- `examples_to_md(schema, key="examples")` from the source,
parameterized by the serializer `ser`, which stands for the external
`to_yaml_string(data=example, end_of_file_newline=False)` call followed
by `.removesuffix("\n...")`.  A non-sequence `examples` value is outside
the data model (Python would iterate it); it is mapped to the absent
result, and the claims only quantify over sequences. -/
def examples_to_md (ser : JSON → String) (schema : JSON) (key : String := "examples") :
    Option String × Bool :=
  match schema with
  | .obj kvs =>
    match lk key kvs with
    | some (.arr examples) =>
      let examples_text := examples.toList.map ser
      let all_can_be_inline := examples_text.all text_can_be_inline
      let total_can_be_inline :=
        decide ((examples_text.map String.length).sum ≤ INLINE_MAX_LINE_LENGTH)
      if all_can_be_inline && total_can_be_inline then
        (some (comma_list examples_text true), true)
      else if all_can_be_inline then
        (some (normal_list examples_text), false)
      else
        (some (String.intercalate "\n" (examples_text.map code_block)), false)
    | _ => (none, false)
  | _ => (none, false)

/-- The `(keyword, link)` token pair `if_to_md` emits for one present
key (the loop body of the source): the keyword label followed by either
a reference link — when the sub-schema carries a string `$ref`; the
partiality of `ref_name` propagates as an error — or a link to this
node's generated section for that keyword.  The source's parameters
`tag_prefix` and `tag_prefix_refs` are named `tag_pfx` and
`tag_pfx_refs` here.  A non-mapping sub-schema is outside the data model
(`"$ref" in sub` would raise) and maps to an error. -/
def if_key_tokens (slug : String → String) (fullpath tag_pfx tag_pfx_refs key : String)
    (sub : JSON) : Except String (List String) :=
  match sub with
  | .obj skvs =>
    match lk "$ref" skvs with
    | some (.str ref) =>
      match ref_name ref with
      | some n => .ok [key, "[`" ++ n ++ "`](#" ++ slug (tag_pfx_refs ++ "-" ++ ref) ++ ")"]
      | none => .error "IndexError"
    | some _ => .error "AttributeError"
    | none =>
      .ok [key, "[`" ++ key ++ "`](#" ++ slug (tag_pfx ++ "-" ++ fullpath ++ "-" ++ key) ++ ")"]
  | _ => .error "TypeError"

/-- `if_to_md(schema, fullpath, tag_prefix="", tag_prefix_refs="")` from
the source, parameterized by the slugifier.  The loop over
`("if", "then", "else")` `break`s at the first absent key, so the
emitted tokens cover the longest present prefix of that tuple; the
joined token string is returned with inline flag `True` when any token
was emitted, and `(None, False)` when `if` is absent. -/
def if_to_md (slug : String → String) (schema : JSON) (fullpath : String)
    (tag_pfx : String := "") (tag_pfx_refs : String := "") :
    Except String (Option String × Bool) :=
  match schema with
  | .obj kvs =>
    match lk "if" kvs with
    | none => .ok (none, false)
    | some sub1 => do
      let t1 ← if_key_tokens slug fullpath tag_pfx tag_pfx_refs "if" sub1
      match lk "then" kvs with
      | none => .ok (some (String.intercalate " " t1), true)
      | some sub2 => do
        let t2 ← if_key_tokens slug fullpath tag_pfx tag_pfx_refs "then" sub2
        match lk "else" kvs with
        | none => .ok (some (String.intercalate " " (t1 ++ t2)), true)
        | some sub3 => do
          let t3 ← if_key_tokens slug fullpath tag_pfx tag_pfx_refs "else" sub3
          .ok (some (String.intercalate " " (t1 ++ t2 ++ t3)), true)
  | _ => .error "TypeError"

/-! ## Theorems -/

theorem JSON.size_pos (s : JSON) : 0 < s.size := by
  cases s <;> simp [JSON.size]

theorem lk_size {key : String} : ∀ {kvs : JObj} {v : JSON}, lk key kvs = some v → v.size < kvs.size
  | .cons k w t, v, h => by
    by_cases hk : k == key
    · simp [lk, hk] at h
      subst h
      simp [JObj.size]
      omega
    · simp [lk, hk] at h
      have := lk_size h
      simp [JObj.size]
      omega

theorem mem_arr_size : ∀ {xs : JArr} {x : JSON}, x ∈ xs.toList → x.size < xs.size
  | .cons h t, x, hx => by
    rcases List.mem_cons.mp (by simpa [JArr.toList] using hx) with rfl | hx
    · simp [JArr.size]; omega
    · have := mem_arr_size hx
      simp [JArr.size]; omega

theorem mem_obj_snd_size : ∀ {kvs : JObj} {x : JSON},
    x ∈ kvs.toList.map Prod.snd → x.size < kvs.size
  | .cons k v t, x, hx => by
    simp only [JObj.toList, List.map_cons, List.mem_cons] at hx
    rcases hx with rfl | hx
    · simp [JObj.size]; omega
    · have := mem_obj_snd_size hx
      simp [JObj.size]; omega

theorem get_subschemas_size {s : JSON} {key : String} {p : List String × List JSON}
    (h : get_subschemas s key = some p) : ∀ x ∈ p.2, x.size < s.size := by
  intro x hx
  match s with
  | .null | .bool _ | .num _ | .str _ | .arr _ => simp [get_subschemas] at h
  | .obj kvs =>
    have hsz : (JSON.obj kvs).size = 1 + kvs.size := rfl
    simp only [get_subschemas] at h
    split_ifs at h with h1 h2 h3 h4
    · -- properties
      cases hlk : lk key kvs with
      | none => rw [hlk] at h; simp at h
      | some v =>
        rw [hlk] at h
        cases v with
        | obj props =>
          simp only [Option.some.injEq] at h
          subst h
          simp only at hx
          have h1 := mem_obj_snd_size hx
          have h2 := lk_size hlk
          have : (JSON.obj props).size = 1 + props.size := rfl
          omega
        | null | bool _ | num _ | str _ | arr _ => simp at h
    · -- additionalProperties
      cases hlk : lk key kvs with
      | none => rw [hlk] at h; simp at h
      | some v =>
        rw [hlk] at h
        cases v with
        | obj w =>
          simp only [Option.some.injEq] at h
          subst h
          simp only [List.mem_singleton] at hx
          subst hx
          have := lk_size hlk
          omega
        | null | bool _ | num _ | str _ | arr _ =>
          simp only [Option.some.injEq] at h
          subst h
          simp at hx
    · -- items
      cases hlk : lk key kvs with
      | none => rw [hlk] at h; simp at h
      | some v =>
        rw [hlk] at h
        simp only [Option.some.injEq] at h
        subst h
        simp only [List.mem_singleton] at hx
        subst hx
        have := lk_size hlk
        omega
    · -- not / if / then / else
      cases hlk : lk key kvs with
      | none => rw [hlk] at h; simp at h
      | some v =>
        rw [hlk] at h
        simp only [Option.some.injEq] at h
        subst h
        simp only [List.mem_singleton] at hx
        subst hx
        have := lk_size hlk
        omega
    · -- anyOf / oneOf / allOf (and any other key)
      cases hlk : lk key kvs with
      | none => rw [hlk] at h; simp at h
      | some v =>
        rw [hlk] at h
        cases v with
        | arr xs =>
          simp only [Option.some.injEq] at h
          subst h
          simp only at hx
          have h1 := mem_arr_size hx
          have h2 := lk_size hlk
          have : (JSON.arr xs).size = 1 + xs.size := rfl
          omega
        | null | bool _ | num _ | str _ | obj _ => simp at h

theorem get_subschemas_isSome {kvs : JObj} {key : String} {p : List String × List JSON}
    (h : get_subschemas (.obj kvs) key = some p) : (lk key kvs).isSome = true := by
  simp only [get_subschemas] at h
  split_ifs at h <;>
    (cases hlk : lk key kvs <;> rw [hlk] at h <;> simp_all)

theorem reach_zero {s t : JSON} (h : ReachAt s 0 t) : t = s := by
  cases h
  rfl

/-- C1: for every schema node (mapping) that contains the key `$ref`,
`needs_separate_section(schema, max_nesting, depth)` returns `false`,
for every value of `max_nesting` and `depth` and regardless of any other
keys present in the node. -/
theorem needs_separate_section_of_ref (kvs : JObj) (v : JSON) (max_nesting rec : Nat)
    (h : lk "$ref" kvs = some v) :
    needs_separate_section (.obj kvs) max_nesting rec = false := by
  unfold needs_separate_section
  have hs : (JSON.obj kvs).size = kvs.size + 1 := by simp [JSON.size]; omega
  rw [hs]
  simp [nssF, h]

/-- Witness for C1 at a concrete node `{"$ref": "a#b", "properties": {}}`. -/
theorem needs_separate_section_of_ref_witness :
    lk "$ref" (.cons "$ref" (.str "a#b") (.cons "properties" (.obj .nil) .nil)) =
      some (.str "a#b") ∧
    needs_separate_section
      (.obj (.cons "$ref" (.str "a#b") (.cons "properties" (.obj .nil) .nil))) 0 5 = false :=
  ⟨rfl, needs_separate_section_of_ref _ _ 0 5 rfl⟩

/-- C3 (code bug): the docstring of `needs_separate_section` promises
that a schema with any of `anyOf`/`oneOf`/`allOf` (or `not`/`if`) needs a
separate section, but the code treats composition keywords exactly like
ordinary nesting: for the node `{"anyOf": [{"type": "string"}]}` (with
the default `max_nesting = 2`) the key `anyOf` is present, yet the
function returns `false` because the members are shallow. -/
theorem needs_separate_section_anyOf_shallow :
    (lk "anyOf"
      (.cons "anyOf" (.arr (.cons (.obj (.cons "type" (.str "string") .nil)) .nil)) .nil)).isSome
      = true ∧
    needs_separate_section
      (.obj (.cons "anyOf" (.arr (.cons (.obj (.cons "type" (.str "string") .nil)) .nil)) .nil))
      = false := by
  decide

theorem nssF_true_of_reach {s : JSON} {d : Nat} {t : JSON} (h : ReachAt s d t) :
    hasRef t = false → hasStructKey t = true →
    ∀ fuel m r, s.size ≤ fuel → m ≤ r + d → nssF fuel s m r = true := by
  induction h with
  | refl s =>
    intro hrt hst fuel m r hfuel hm
    match s, hrt, hst with
    | .obj kvs, hrt, hst =>
      cases fuel with
      | zero => exact absurd hfuel (by have := JSON.size_pos (.obj kvs); omega)
      | succ fuel =>
        simp only [hasRef] at hrt
        simp only [hasStructKey, List.any_eq_true] at hst
        obtain ⟨key, hkey, hpres⟩ := hst
        simp only [nssF, hrt, Bool.false_eq_true, if_false, List.any_eq_true]
        exact ⟨key, hkey, by simp [hpres, show m ≤ r by omega]⟩
  | step key p hrefs hkey hgs hmem h' ih =>
    intro hrt hst fuel m r hfuel hm
    rename_i s u t d
    match s, hgs with
    | .obj kvs, hgs =>
      cases fuel with
      | zero => exact absurd hfuel (by have := JSON.size_pos (.obj kvs); omega)
      | succ fuel =>
        simp only [hasRef] at hrefs
        simp only [nssF, hrefs, Bool.false_eq_true, if_false, List.any_eq_true]
        refine ⟨key, hkey, ?_⟩
        rw [get_subschemas_isSome hgs, Bool.true_and]
        by_cases hmr : m ≤ r
        · rw [if_pos hmr]
        · rw [if_neg hmr, hgs]
          simp only [List.any_eq_true]
          have hsz : u.size ≤ fuel := by
            have h1 := get_subschemas_size hgs u hmem
            have h2 : (JSON.obj kvs).size ≤ fuel + 1 := hfuel
            omega
          exact ⟨u, hmem, ih hrt hst fuel m (r + 1) hsz (by omega)⟩

theorem nssF_false_of_shallow :
    ∀ fuel : Nat, ∀ {s : JSON} {m r : Nat}, s.size ≤ fuel → wfF fuel s = true →
    (∀ t d, ReachAt s d t → m ≤ r + d → hasStructKey t = false) →
    nssF fuel s m r = false := by
  intro fuel
  induction fuel with
  | zero => intro s m r _ _ _; simp [nssF]
  | succ f ih =>
    intro s m r hsz hwf hreach
    match s, hwf with
    | .obj kvs, hwf =>
      simp only [nssF]
      cases href : (lk "$ref" kvs).isSome with
      | true => simp [href]
      | false =>
        rw [if_neg (by simp [href])]
        simp only [List.any_eq_false]
        intro key hkey
        cases hpres : (lk key kvs).isSome with
        | false => simp [hpres]
        | true =>
          simp only [Bool.true_and]
          have hmr : ¬ m ≤ r := by
            intro hmr
            have h0 := hreach (.obj kvs) 0 (ReachAt.refl _) (by omega)
            simp only [hasStructKey, List.any_eq_false] at h0
            have := h0 key hkey
            simp [hpres] at this
          rw [if_neg hmr]
          simp only [wfF, List.all_eq_true] at hwf
          have hw := hwf key hkey
          rw [hpres] at hw
          simp only [Bool.not_true, Bool.false_or] at hw
          cases hgs : get_subschemas (.obj kvs) key with
          | none => rw [hgs] at hw; simp at hw
          | some p =>
            rw [hgs] at hw
            have hw2 : (p.2.all fun s => isObj s && wfF f s) = true := hw
            rw [List.all_eq_true] at hw2
            show ¬ (p.2.any fun s => nssF f s m (r + 1)) = true
            simp only [Bool.not_eq_true, List.any_eq_false]
            intro u hu
            have hwu := hw2 u hu
            rw [Bool.and_eq_true] at hwu
            apply ih
            · have h1 := get_subschemas_size hgs u hu
              have h2 : (JSON.obj kvs).size ≤ f + 1 := hsz
              omega
            · exact hwu.2
            · intro t d hr hm
              exact hreach t (d + 1)
                (ReachAt.step key p (by simp [hasRef, href]) hkey hgs hu hr) (by omega)

/-- C2: for a well-formed schema node without `$ref`, (a) if no node
reachable by the structural traversal at depth `≥ max_nesting` carries a
structural keyword — i.e. all structural content is nested strictly
within `max_nesting` levels — and no composition keyword occurs
anywhere, then `needs_separate_section` returns `false`; (b) if the
structural traversal reaches a ($ref-free) node at depth `≥ max_nesting`
that still contains some structural keyword, it returns `true`. -/
theorem needs_separate_section_depth_spec (s : JSON) (m : Nat) :
    (wfSchema s = true → hasRef s = false → noComp s = true →
      (∀ t d, ReachAt s d t → m ≤ d → hasStructKey t = false) →
      needs_separate_section s m 0 = false)
    ∧
    (∀ t d, wfSchema s = true → ReachAt s d t → m ≤ d →
      hasRef t = false → hasStructKey t = true →
      needs_separate_section s m 0 = true) := by
  constructor
  · intro hwf _ _ hreach
    exact nssF_false_of_shallow s.size (le_refl _) hwf (fun t d h hm => hreach t d h (by omega))
  · intro t d _ hr hm ht hs
    exact nssF_true_of_reach hr ht hs s.size m 0 (le_refl _) (by omega)

/-- Witness for C2: (a) `{"type": "string"}` with `max_nesting = 0` has
no structural keyword at any reachable depth and yields `false`;
(b) `{"properties": {"a": {"properties": {"b": {"properties": {}}}}}}`
reaches a node carrying `properties` at depth `2 = max_nesting` and
yields `true`. -/
theorem needs_separate_section_depth_spec_witness :
    needs_separate_section (.obj (.cons "type" (.str "string") .nil)) 0 0 = false ∧
    needs_separate_section
      (.obj (.cons "properties"
        (.obj (.cons "a" (.obj (.cons "properties"
          (.obj (.cons "b" (.obj (.cons "properties" (.obj .nil) .nil)) .nil)) .nil)) .nil)) .nil))
      2 0 = true := by
  constructor
  · apply (needs_separate_section_depth_spec _ 0).1
    · decide
    · decide
    · decide
    · intro t d h _
      cases h with
      | refl => decide
      | step key p href hkey hgs hmem h' =>
        simp only [structKeys, List.mem_cons, List.not_mem_nil, or_false] at hkey
        rcases hkey with rfl | rfl | rfl | rfl | rfl | rfl | rfl | rfl | rfl | rfl <;>
          simp [get_subschemas, lk] at hgs
  · apply (needs_separate_section_depth_spec _ 2).2
      (.obj (.cons "properties" (.obj .nil) .nil)) 2
    · decide
    · refine ReachAt.step "properties"
        (["a"], [.obj (.cons "properties"
          (.obj (.cons "b" (.obj (.cons "properties" (.obj .nil) .nil)) .nil)) .nil)])
        (by decide) (by decide) rfl (List.mem_singleton.mpr rfl) ?_
      refine ReachAt.step "properties"
        (["b"], [.obj (.cons "properties" (.obj .nil) .nil)])
        (by decide) (by decide) rfl (List.mem_singleton.mpr rfl) ?_
      exact ReachAt.refl _
    · omega
    · decide
    · decide

theorem any_eq_str_iff_mem (xs : List JSON) (k : String) :
    (xs.any fun x =>
      match x with
      | .str s => s == k
      | _ => false) = true ↔ JSON.str k ∈ xs := by
  induction xs with
  | nil => simp
  | cons x rest ih =>
    cases x with
    | str s =>
      simp [ih]
      exact ⟨fun h => h.elim (fun e => Or.inl e.symm) Or.inr,
        fun h => h.elim (fun e => Or.inl e.symm) Or.inr⟩
    | null => simp [ih]
    | bool b => simp [ih]
    | num n => simp [ih]
    | arr a => simp [ih]
    | obj w => simp [ih]

/-- C9: `subschema_is_required(schema, key, sub_key)` is: for
`key = "properties"`, true iff `sub_key` is a member of the node's
`required` sequence (absent `required` gives false); for `key = "items"`,
true iff `minItems` is present and greater than `0` (so false for
`minItems = 0` or absent); and false for every other key regardless of
the node's contents. -/
theorem subschema_is_required_spec :
    (∀ kvs sub_key xs, lk "required" kvs = some (.arr xs) →
      (subschema_is_required (.obj kvs) "properties" sub_key = true ↔
        JSON.str sub_key ∈ xs.toList))
    ∧ (∀ kvs sub_key, lk "required" kvs = none →
      subschema_is_required (.obj kvs) "properties" sub_key = false)
    ∧ (∀ kvs n sub_key, lk "minItems" kvs = some (.num n) →
      (subschema_is_required (.obj kvs) "items" sub_key = true ↔ 0 < n))
    ∧ (∀ kvs sub_key, lk "minItems" kvs = none →
      subschema_is_required (.obj kvs) "items" sub_key = false)
    ∧ (∀ s key sub_key, key ≠ "properties" → key ≠ "items" →
      subschema_is_required s key sub_key = false) := by
  refine ⟨?_, ?_, ?_, ?_, ?_⟩
  · intro kvs sub_key xs h
    rw [← any_eq_str_iff_mem xs.toList sub_key]
    simp [subschema_is_required, h]
  · intro kvs sub_key h
    simp [subschema_is_required, h]
  · intro kvs n sub_key h
    simp [subschema_is_required, array_items_are_required, h]
  · intro kvs sub_key h
    simp [subschema_is_required, array_items_are_required, h]
  · intro s key sub_key h1 h2
    simp [subschema_is_required, h1, h2]

/-- Witness for C9: membership in `required`, `minItems = 0`, and a
non-`properties`/`items` key, at concrete nodes. -/
theorem subschema_is_required_spec_witness :
    subschema_is_required
      (.obj (.cons "required" (.arr (.cons (.str "a") .nil)) .nil)) "properties" "a" = true ∧
    subschema_is_required (.obj (.cons "minItems" (.num 0) .nil)) "items" "" = false ∧
    subschema_is_required (.obj (.cons "minItems" (.num 2) .nil)) "anyOf" "x" = false := by
  refine ⟨?_, ?_, ?_⟩
  · exact (subschema_is_required_spec.1 (.cons "required" (.arr (.cons (.str "a") .nil)) .nil)
      "a" (.cons (.str "a") .nil) rfl).mpr (by simp [JArr.toList])
  · have h := subschema_is_required_spec.2.2.1 (.cons "minItems" (.num 0) .nil) 0 "" rfl
    simp only [show ¬ ((0 : Int) < 0) by omega, iff_false, Bool.not_eq_true] at h
    exact h
  · exact subschema_is_required_spec.2.2.2.2 _ "anyOf" "x" (by decide) (by decide)

/-- C6: for every schema node in which the requested key is present,
`get_subschemas` returns two equal-length parallel sequences, with the
branch-specific labels and nodes described by the spec: property names
in insertion order paired with their schemas; `(["*"], [node])` for a
mapping-valued `additionalProperties` and empty sequences for a boolean
one; `(["[i]"], [items])`; `([key], [node])` for the conditional
keywords; and 1-indexed labels `key[1]`…`key[n]` for the composition
keywords. -/
theorem get_subschemas_spec :
    (∀ s key p, get_subschemas s key = some p → p.1.length = p.2.length)
    ∧ (∀ kvs props, lk "properties" kvs = some (.obj props) →
        get_subschemas (.obj kvs) "properties" =
          some (props.toList.map Prod.fst, props.toList.map Prod.snd))
    ∧ (∀ kvs w, lk "additionalProperties" kvs = some (.obj w) →
        get_subschemas (.obj kvs) "additionalProperties" = some (["*"], [.obj w]))
    ∧ (∀ kvs b, lk "additionalProperties" kvs = some (.bool b) →
        get_subschemas (.obj kvs) "additionalProperties" = some ([], []))
    ∧ (∀ kvs v, lk "items" kvs = some v →
        get_subschemas (.obj kvs) "items" = some (["[i]"], [v]))
    ∧ (∀ key, key ∈ (["not", "if", "then", "else"] : List String) →
        ∀ kvs v, lk key kvs = some v → get_subschemas (.obj kvs) key = some ([key], [v]))
    ∧ (∀ key, key ∈ (["anyOf", "oneOf", "allOf"] : List String) →
        ∀ kvs xs, lk key kvs = some (.arr xs) →
        get_subschemas (.obj kvs) key =
          some ((List.range xs.toList.length).map fun i => key ++ "[" ++ toString (i + 1) ++ "]",
                xs.toList)) := by
  refine ⟨?_, ?_, ?_, ?_, ?_, ?_, ?_⟩
  · intro s key p h
    match s with
    | .null | .bool _ | .num _ | .str _ | .arr _ => simp [get_subschemas] at h
    | .obj kvs =>
      simp only [get_subschemas] at h
      split_ifs at h with h1 h2 h3 h4 <;>
        cases hlk : lk key kvs <;> rw [hlk] at h <;>
          (try (rename_i v; cases v)) <;> cases h <;> simp
  · intro kvs props h
    simp [get_subschemas, h]
  · intro kvs w h
    simp [get_subschemas, h]
  · intro kvs b h
    simp [get_subschemas, h]
  · intro kvs v h
    simp [get_subschemas, h]
  · intro key hkey kvs v h
    simp only [List.mem_cons, List.mem_singleton, List.not_mem_nil, or_false] at hkey
    rcases hkey with rfl | rfl | rfl | rfl <;> simp [get_subschemas, h]
  · intro key hkey kvs xs h
    simp only [List.mem_cons, List.mem_singleton, List.not_mem_nil, or_false] at hkey
    rcases hkey with rfl | rfl | rfl <;> simp [get_subschemas, h]

/-- Witness for C6: property insertion order, boolean
`additionalProperties`, and 1-indexed `anyOf` labels at concrete
nodes. -/
theorem get_subschemas_spec_witness :
    get_subschemas
      (.obj (.cons "properties"
        (.obj (.cons "b" (.obj .nil) (.cons "a" (.obj .nil) .nil))) .nil)) "properties" =
      some (["b", "a"], [.obj .nil, .obj .nil]) ∧
    get_subschemas (.obj (.cons "additionalProperties" (.bool false) .nil))
      "additionalProperties" = some ([], []) ∧
    get_subschemas (.obj (.cons "anyOf" (.arr (.cons (.obj .nil) (.cons (.obj .nil) .nil))) .nil))
      "anyOf" = some (["anyOf[1]", "anyOf[2]"], [.obj .nil, .obj .nil]) :=
  ⟨get_subschemas_spec.2.1 (.cons "properties"
      (.obj (.cons "b" (.obj .nil) (.cons "a" (.obj .nil) .nil))) .nil)
      (.cons "b" (.obj .nil) (.cons "a" (.obj .nil) .nil)) rfl,
   get_subschemas_spec.2.2.2.1 (.cons "additionalProperties" (.bool false) .nil) false rfl,
   get_subschemas_spec.2.2.2.2.2.2 "anyOf" (by simp)
     (.cons "anyOf" (.arr (.cons (.obj .nil) (.cons (.obj .nil) .nil))) .nil)
     (.cons (.obj .nil) (.cons (.obj .nil) .nil)) rfl⟩

theorem JObj_ofList_toList : ∀ o : JObj, JObj.ofList o.toList = o
  | .nil => rfl
  | .cons k v t => by simp [JObj.toList, JObj.ofList, JObj_ofList_toList t]

theorem JArr_ofList_toList : ∀ a : JArr, JArr.ofList a.toList = a
  | .nil => rfl
  | .cons h t => by simp [JArr.toList, JArr.ofList, JArr_ofList_toList t]

theorem mem_obj_pair_size : ∀ {kvs : JObj} {kv : String × JSON},
    kv ∈ kvs.toList → kv.2.size < kvs.size
  | .cons k v t, kv, hkv => by
    simp only [JObj.toList, List.mem_cons] at hkv
    rcases hkv with rfl | hkv
    · simp [JObj.size]; omega
    · have := mem_obj_pair_size hkv
      simp [JObj.size]; omega

theorem mem_arr_elem_size : ∀ {xs : JArr} {x : JSON}, x ∈ xs.toList → x.size < xs.size
  | .cons h t, x, hx => by
    simp only [JArr.toList, List.mem_cons] at hx
    rcases hx with rfl | hx
    · simp [JArr.size]; omega
    · have := mem_arr_elem_size hx
      simp [JArr.size]; omega

theorem clean_schemaF_stable :
    ∀ fuel : Nat, ∀ {fuel' : Nat} {s : JSON} {ipd : Bool}, s.size ≤ fuel → s.size ≤ fuel' →
    clean_schemaF fuel s ipd = clean_schemaF fuel' s ipd := by
  intro fuel
  induction fuel with
  | zero =>
    intro fuel' s ipd hsz _
    exact absurd hsz (by have := JSON.size_pos s; omega)
  | succ f ih =>
    intro fuel' s ipd hsz hsz'
    cases fuel' with
    | zero => exact absurd hsz' (by have := JSON.size_pos s; omega)
    | succ f' =>
      match s with
      | .null | .bool _ | .num _ | .str _ => simp [clean_schemaF]
      | .obj kvs =>
        simp only [clean_schemaF, JSON.obj.injEq]
        congr 1
        apply List.map_congr_left
        intro kv hkv
        have hm : kv ∈ kvs.toList := List.mem_of_mem_filter hkv
        have hvs : kv.2.size < (JSON.obj kvs).size := by
          have h1 := mem_obj_pair_size hm
          have h2 : (JSON.obj kvs).size = 1 + kvs.size := rfl
          omega
        match hv : kv.2 with
        | .obj w =>
          have hb : (JSON.obj w).size ≤ f ∧ (JSON.obj w).size ≤ f' := by
            rw [← hv]
            omega
          simp only
          rw [ih hb.1 hb.2]
        | .arr xs =>
          have hb : (JSON.arr xs).size ≤ f ∧ (JSON.arr xs).size ≤ f' := by
            rw [← hv]
            omega
          simp only
          rw [ih hb.1 hb.2]
        | .null | .bool _ | .num _ | .str _ => simp
      | .arr xs =>
        simp only [clean_schemaF, JSON.arr.injEq]
        congr 1
        apply List.map_congr_left
        intro x hx
        have hvs : x.size < (JSON.arr xs).size := by
          have h1 := mem_arr_elem_size hx
          have h2 : (JSON.arr xs).size = 1 + xs.size := rfl
          omega
        match hv : x with
        | .obj w =>
          have hb : (JSON.obj w).size ≤ f ∧ (JSON.obj w).size ≤ f' := by
            first
              | (rw [← hv]; omega)
              | omega
          simp only
          rw [ih hb.1 hb.2]
        | .arr ys =>
          have hb : (JSON.arr ys).size ≤ f ∧ (JSON.arr ys).size ≤ f' := by
            first
              | (rw [← hv]; omega)
              | omega
          simp only
          rw [ih hb.1 hb.2]
        | .null | .bool _ | .num _ | .str _ => simp

theorem clean_schemaF_of_noMeta :
    ∀ fuel : Nat, ∀ {s : JSON} {ipd : Bool}, s.size ≤ fuel → noMetaF fuel s = true →
    clean_schemaF fuel s ipd = s := by
  intro fuel
  induction fuel with
  | zero =>
    intro s ipd hsz _
    exact absurd hsz (by have := JSON.size_pos s; omega)
  | succ f ih =>
    intro s ipd hsz hnm
    match s with
    | .null | .bool _ | .num _ | .str _ => simp [clean_schemaF]
    | .obj kvs =>
      simp only [noMetaF, List.all_eq_true] at hnm
      simp only [clean_schemaF, JSON.obj.injEq]
      have hfilter :
          (kvs.toList.filter fun kv => !(metaKeys.contains kv.1 && !ipd)) = kvs.toList := by
        apply List.filter_eq_self.mpr
        intro kv hkv
        have h1 := hnm kv hkv
        rw [Bool.and_eq_true] at h1
        have h2 : metaKeys.contains kv.1 = false := by simpa using h1.1
        rw [h2]
        simp
      rw [hfilter]
      have hmap :
          (kvs.toList.map fun kv =>
            (kv.1,
             match kv.2 with
             | .obj w => clean_schemaF f (.obj w) (kv.1 == "properties")
             | .arr ys => clean_schemaF f (.arr ys) false
             | v => v)) = kvs.toList.map id := by
        apply List.map_congr_left
        intro kv hkv
        have h1 := hnm kv hkv
        rw [Bool.and_eq_true] at h1
        have hsub : kv.2.size ≤ f := by
          have h2 := mem_obj_pair_size hkv
          have h3 : (JSON.obj kvs).size = 1 + kvs.size := rfl
          omega
        have hnm2 : noMetaF f kv.2 = true := h1.2
        match hv : kv.2 with
        | .obj w =>
          simp only [id_eq]
          rw [hv] at hsub hnm2
          rw [ih hsub hnm2, ← hv]
        | .arr ys =>
          simp only [id_eq]
          rw [hv] at hsub hnm2
          rw [ih hsub hnm2, ← hv]
        | .null | .bool _ | .num _ | .str _ => simp [← hv]
      rw [hmap, List.map_id, JObj_ofList_toList]
    | .arr xs =>
      simp only [noMetaF, List.all_eq_true] at hnm
      simp only [clean_schemaF, JSON.arr.injEq]
      have hmap :
          (xs.toList.map fun x =>
            match x with
            | .obj w => clean_schemaF f (.obj w) false
            | .arr ys => clean_schemaF f (.arr ys) false
            | v => v) = xs.toList.map id := by
        apply List.map_congr_left
        intro x hx
        have hsub : x.size ≤ f := by
          have h2 := mem_arr_elem_size hx
          have h3 : (JSON.arr xs).size = 1 + xs.size := rfl
          omega
        have hnm2 : noMetaF f x = true := hnm x hx
        match hv : x with
        | .obj w =>
          show clean_schemaF f (JSON.obj w) false = id (JSON.obj w)
          simp only [id_eq]
          exact ih hsub hnm2
        | .arr ys =>
          show clean_schemaF f (JSON.arr ys) false = id (JSON.arr ys)
          simp only [id_eq]
          exact ih hsub hnm2
        | .null | .bool _ | .num _ | .str _ => simp
      rw [hmap, List.map_id, JArr_ofList_toList]

theorem JObj_toList_ofList : ∀ L : List (String × JSON), (JObj.ofList L).toList = L
  | [] => rfl
  | (k, v) :: t => by simp [JObj.ofList, JObj.toList, JObj_toList_ofList t]

theorem lk_clean_list (pr : String → Bool) (f : String → JSON → JSON) (k : String) :
    ∀ o : JObj,
    lk k (JObj.ofList ((o.toList.filter fun kv => pr kv.1).map fun kv => (kv.1, f kv.1 kv.2))) =
      if pr k then (lk k o).map (f k) else none
  | .nil => by
    cases hp : pr k <;> simp [JObj.toList, JObj.ofList, lk, hp]
  | .cons k' v t => by
    have ih := lk_clean_list pr f k t
    by_cases hk : k' = k
    · subst hk
      cases hp : pr k' <;>
        simp [JObj.toList, List.filter_cons, hp, JObj.ofList, lk, ih]
    · have hbeq : (k' == k) = false := by simpa using hk
      cases hp : pr k' <;>
        simp [JObj.toList, List.filter_cons, hp, JObj.ofList, lk, hbeq, ih]

/-- C4: `clean_schema` (i) is the identity (up to the `.ok` wrapper) on a
mapping in which no documentation-metadata key occurs anywhere; (ii) on
any mapping, removes exactly the metadata keys, preserving all other keys
in order with their values cleaned recursively (`clean_value`);
(iii) inside a `properties` map the direct keys are never treated as
metadata: all property names are kept, each property value being cleaned
by `clean_value`; (iv) a property named anything other than `properties`
(e.g. `default` or `title`) has its mapping value cleaned as a normal
schema. -/
theorem clean_schema_spec :
    (∀ (kvs : JObj) (ipd : Bool), noMeta (.obj kvs) = true →
      clean_schema (.obj kvs) ipd = .ok (.obj kvs))
    ∧ (∀ kvs : JObj, ∃ C : JObj, clean_schema (.obj kvs) false = .ok (.obj C)
        ∧ C.toList.map Prod.fst =
            (kvs.toList.filter fun kv => !(metaKeys.contains kv.1)).map Prod.fst
        ∧ ∀ k, lk k C = if metaKeys.contains k then none else (lk k kvs).map (clean_value k))
    ∧ (∀ props : JObj, ∃ P : JObj, clean_value "properties" (.obj props) = .obj P
        ∧ P.toList.map Prod.fst = props.toList.map Prod.fst
        ∧ ∀ k, lk k P = (lk k props).map (clean_value k))
    ∧ (∀ (k : String) (w : JObj), k ≠ "properties" →
        clean_value k (.obj w) = clean_schemaF (JSON.size (.obj w)) (.obj w) false) := by
  refine ⟨?_, ?_, ?_, ?_⟩
  · intro kvs ipd h
    have h' : noMetaF (JSON.obj kvs).size (.obj kvs) = true := h
    show Except.ok (clean_schemaF (JSON.obj kvs).size (.obj kvs) ipd) = .ok (.obj kvs)
    rw [clean_schemaF_of_noMeta _ (le_refl _) h']
  · intro kvs
    have hsize : (JSON.obj kvs).size = kvs.size + 1 := by simp [JSON.size]; omega
    refine ⟨JObj.ofList
        ((kvs.toList.filter fun kv => !(metaKeys.contains kv.1 && !false)).map
          fun kv =>
            (kv.1,
             match kv.2 with
             | .obj w => clean_schemaF kvs.size (.obj w) (kv.1 == "properties")
             | .arr xs => clean_schemaF kvs.size (.arr xs) false
             | v => v)), ?_, ?_, ?_⟩
    · show Except.ok (clean_schemaF (JSON.obj kvs).size (.obj kvs) false) = _
      rw [hsize]
      rfl
    · rw [JObj_toList_ofList]
      have hp : (fun kv : String × JSON => !(metaKeys.contains kv.1 && !false)) =
          (fun kv : String × JSON => !(metaKeys.contains kv.1)) := by
        funext kv
        simp
      rw [hp, List.map_map]
      exact List.map_congr_left fun kv _ => rfl
    · intro k
      refine Eq.trans
        (lk_clean_list (fun x => !(metaKeys.contains x && !false))
          (fun k1 v =>
            match v with
            | .obj w => clean_schemaF kvs.size (.obj w) (k1 == "properties")
            | .arr a => clean_schemaF kvs.size (.arr a) false
            | v => v) k kvs) ?_
      by_cases hm : metaKeys.contains k
      · simp [show k ∈ metaKeys by simpa using hm]
      · have hm' : metaKeys.contains k = false := by simpa using hm
        simp only [hm', Bool.false_and, Bool.not_false, if_true, Bool.false_eq_true, if_false]
        cases hv : lk k kvs with
        | none => rfl
        | some v =>
          cases v with
          | obj w => exact congrArg some (clean_schemaF_stable kvs.size (lk_size hv).le (le_refl _))
          | arr a => exact congrArg some (clean_schemaF_stable kvs.size (lk_size hv).le (le_refl _))
          | null => rfl
          | bool b => rfl
          | num n => rfl
          | str s2 => rfl
  · intro props
    have hsize : (JSON.obj props).size = props.size + 1 := by simp [JSON.size]; omega
    refine ⟨JObj.ofList
        ((props.toList.filter fun kv => !(metaKeys.contains kv.1 && !true)).map
          fun kv =>
            (kv.1,
             match kv.2 with
             | .obj w => clean_schemaF props.size (.obj w) (kv.1 == "properties")
             | .arr xs => clean_schemaF props.size (.arr xs) false
             | v => v)), ?_, ?_, ?_⟩
    · show clean_schemaF (JSON.size (.obj props)) (.obj props) ("properties" == "properties") = _
      rw [show JSON.size (JSON.obj props) = props.size + 1 from hsize]
      rfl
    · rw [JObj_toList_ofList, List.map_map]
      have hfilter :
          (props.toList.filter fun kv => !(metaKeys.contains kv.1 && !true)) = props.toList := by
        apply List.filter_eq_self.mpr
        intro kv _
        simp
      rw [hfilter]
      exact List.map_congr_left fun kv _ => rfl
    · intro k
      refine Eq.trans
        (lk_clean_list (fun x => !(metaKeys.contains x && !true))
          (fun k1 v =>
            match v with
            | .obj w => clean_schemaF props.size (.obj w) (k1 == "properties")
            | .arr a => clean_schemaF props.size (.arr a) false
            | v => v) k props) ?_
      simp only [Bool.not_true, Bool.and_false, Bool.not_false, if_true]
      cases hv : lk k props with
      | none => rfl
      | some v =>
        cases v with
        | obj w => exact congrArg some (clean_schemaF_stable props.size (lk_size hv).le (le_refl _))
        | arr a => exact congrArg some (clean_schemaF_stable props.size (lk_size hv).le (le_refl _))
        | null => rfl
        | bool b => rfl
        | num n => rfl
        | str s2 => rfl
  · intro k w h
    show clean_schemaF (JSON.size (.obj w)) (.obj w) (k == "properties") = _
    rw [show (k == "properties") = false by simpa using h]

/-- Witness for C4 at concrete nodes: a purely structural schema is
untouched; `{"title": "T", "type": "string"}` loses exactly `title`; a
property named `default` has its value cleaned as a normal schema. -/
theorem clean_schema_spec_witness :
    clean_schema (.obj (.cons "type" (.str "string") .nil)) false =
      .ok (.obj (.cons "type" (.str "string") .nil)) ∧
    (∃ C : JObj,
      clean_schema (.obj (.cons "title" (.str "T") (.cons "type" (.str "string") .nil))) false =
        .ok (.obj C) ∧
      lk "title" C = none ∧ lk "type" C = some (.str "string")) ∧
    clean_value "default" (.obj (.cons "title" (.str "T") .nil)) =
      clean_schemaF (JSON.size (.obj (.cons "title" (.str "T") .nil)))
        (.obj (.cons "title" (.str "T") .nil)) false := by
  refine ⟨?_, ?_, ?_⟩
  · exact clean_schema_spec.1 _ false (by decide)
  · obtain ⟨C, h1, h2, h3⟩ :=
      clean_schema_spec.2.1 (.cons "title" (.str "T") (.cons "type" (.str "string") .nil))
    refine ⟨C, h1, ?_, ?_⟩
    · have h := h3 "title"
      simpa [metaKeys] using h
    · have h := h3 "type"
      simpa [metaKeys, lk, clean_value] using h
  · exact clean_schema_spec.2.2.2 "default" _ (by decide)

theorem pySplit_length (sep : Char) : ∀ l : List Char,
    (pySplit sep l).length = l.count sep + 1
  | [] => rfl
  | c :: rest => by
    have ih := pySplit_length sep rest
    cases hc : c == sep with
    | true =>
      have hcc : c = sep := by simpa using hc
      subst hcc
      simp only [pySplit, beq_self_eq_true, if_true, List.length_cons, ih, List.count_cons]
    | false =>
      have hco : (c :: rest).count sep = rest.count sep := by
        simp [List.count_cons, hc]
      simp only [pySplit, hc, Bool.false_eq_true, if_false]
      cases hr : pySplit sep rest with
      | nil => rw [hr] at ih; simp at ih
      | cons h t =>
        rw [hr] at ih
        simp only [List.length_cons] at ih ⊢
        rw [hco]
        omega

theorem pySplit_not_mem {sep : Char} : ∀ {l : List Char}, sep ∉ l → pySplit sep l = [l]
  | [], _ => rfl
  | c :: rest, h => by
    have hc : ¬ (c == sep) = true := by
      simp only [beq_iff_eq]
      intro hcc
      exact h (by simp [hcc])
    have hrest : sep ∉ rest := fun hm => h (List.mem_cons_of_mem _ hm)
    simp only [pySplit, if_neg hc, pySplit_not_mem hrest]

/-- C10: `ref_name` is partial at the public interface: it returns a
value exactly when the reference contains a `#` (yielding the last
`/`-delimited segment of the final fragment) or, lacking `#`, when the
path contains at least one `.` (yielding the second-to-last
`.`-delimited segment); on a `#`-free, dot-free input the negative
indexing fails and the function raises instead of returning a name. -/
theorem ref_name_partial :
    (∀ ref : String, '#' ∈ ref.toList →
      ref_name ref =
        some (String.mk ((pySplit '/' ((pySplit '#' ref.toList).getLastD [])).getLastD [])))
    ∧ (∀ ref : String, '#' ∉ ref.toList → '.' ∈ ref.toList →
      ref_name ref = some (String.mk ((pySplit '.' ref.toList).dropLast.getLastD [])))
    ∧ (∀ ref : String, '#' ∉ ref.toList → '.' ∉ ref.toList → ref_name ref = none) := by
  refine ⟨?_, ?_, ?_⟩
  · intro ref hmem
    have hcount : 0 < ref.toList.count '#' := List.count_pos_iff.mpr hmem
    have hlen : (pySplit '#' ref.toList).length ≠ 1 := by
      rw [pySplit_length]
      omega
    simp only [ref_name]
    rw [if_neg (by simpa using hlen)]
  · intro ref hno hdot
    have hparts : pySplit '#' ref.toList = [ref.toList] := pySplit_not_mem hno
    have hcount : 0 < ref.toList.count '.' := List.count_pos_iff.mpr hdot
    simp only [ref_name, hparts, List.length_cons, List.length_nil, List.headD_cons]
    rw [if_pos (by simp)]
    rw [if_pos (by rw [pySplit_length]; omega)]
  · intro ref hno hnodot
    have hparts : pySplit '#' ref.toList = [ref.toList] := pySplit_not_mem hno
    have hcount : ref.toList.count '.' = 0 := by
      rw [List.count_eq_zero]
      exact hnodot
    simp only [ref_name, hparts, List.length_cons, List.length_nil, List.headD_cons]
    rw [if_pos (by simp)]
    rw [if_neg (by rw [pySplit_length]; omega)]

/-- Witness for C10 at the spec's own examples:
`ref_name("common.yaml#/defs/Foo") = "Foo"`,
`ref_name("common.yaml") = "common"`, and `ref_name("schema")` raises. -/
theorem ref_name_partial_witness :
    ref_name "common.yaml#/defs/Foo" = some "Foo" ∧
    ref_name "common.yaml" = some "common" ∧
    ref_name "schema" = none := by
  refine ⟨?_, ?_, ?_⟩
  · have h := ref_name_partial.1 "common.yaml#/defs/Foo" (by decide)
    rw [h]
    decide
  · have h := ref_name_partial.2.1 "common.yaml" (by decide) (by decide)
    rw [h]
    decide
  · exact ref_name_partial.2.2 "schema" (by decide) (by decide)

/-- C5 counterexample: the claim says `type_to_md` raises **iff** the
node has no `$ref` and a `type` value that is neither string nor list;
but on `{"$ref": "schema"}` — which has a `$ref`, so the claim predicts
success — the function raises, because `ref_name("schema")` fails on a
reference with no `#` and no `.`. -/
theorem type_to_md_counterexample :
    (lk "$ref" (.cons "$ref" (.str "schema") .nil)).isSome = true ∧
    type_to_md (fun s => s) (.obj (.cons "$ref" (.str "schema") .nil)) = .error "IndexError" :=
  ⟨rfl, rfl⟩

/-- C5 (amended): `type_to_md` fails exactly when either (a) the node
has no `$ref` and its `type` value is present but neither a string, nor
a list, nor null (a null `type` behaves as absent), or (b) the node has
a (string) `$ref` on which `ref_name` fails, i.e. one containing neither
`#` nor `.` — the `$ref` branch takes priority but inherits `ref_name`'s
partiality.  Otherwise it returns, with inline flag `True`: the
reference link for `$ref`, a code token for a string type, an
`" or "`-joined token list for a list type, and, for an absent (or null)
`type`, `` `complex` `` if one of `anyOf`/`oneOf`/`allOf`/`not`/`if` is
present, else `` `any` ``. -/
theorem type_to_md_spec (slug : String → String) :
    (∀ kvs : JObj, (∀ v, lk "$ref" kvs = some v → ∃ r, v = JSON.str r) →
      ((type_to_md slug (.obj kvs)).isOk = false ↔
        ((lk "$ref" kvs = none ∧
          ∃ v, lk "type" kvs = some v ∧ (∀ s, v ≠ .str s) ∧ (∀ xs, v ≠ .arr xs) ∧ v ≠ .null)
         ∨ (∃ r, lk "$ref" kvs = some (.str r) ∧ ref_name r = none))))
    ∧ (∀ kvs r n, lk "$ref" kvs = some (.str r) → ref_name r = some n →
      type_to_md slug (.obj kvs) =
        .ok ("[`" ++ n ++ "`](#" ++ slug ("-" ++ r) ++ ")", true))
    ∧ (∀ kvs t, lk "$ref" kvs = none → lk "type" kvs = some (.str t) →
      type_to_md slug (.obj kvs) = .ok ("`" ++ t ++ "`", true))
    ∧ (∀ kvs xs, lk "$ref" kvs = none → lk "type" kvs = some (.arr xs) →
      type_to_md slug (.obj kvs) =
        .ok (String.intercalate " or " (xs.toList.map fun v => "`" ++ pyStr v ++ "`"), true))
    ∧ (∀ kvs, lk "$ref" kvs = none → lk "type" kvs = none →
      (["anyOf", "oneOf", "allOf", "not", "if"].any fun k => (lk k kvs).isSome) = true →
      type_to_md slug (.obj kvs) = .ok ("`complex`", true))
    ∧ (∀ kvs, lk "$ref" kvs = none → lk "type" kvs = none →
      (["anyOf", "oneOf", "allOf", "not", "if"].any fun k => (lk k kvs).isSome) = false →
      type_to_md slug (.obj kvs) = .ok ("`any`", true)) := by
  refine ⟨?_, ?_, ?_, ?_, ?_, ?_⟩
  · intro kvs href
    constructor
    · intro hfail
      cases h1 : lk "$ref" kvs with
      | some v =>
        obtain ⟨r, rfl⟩ := href v h1
        cases h2 : ref_name r with
        | some n => simp [type_to_md, Except.isOk, Except.toBool, h1, h2] at hfail
        | none => exact Or.inr ⟨r, rfl, h2⟩
      | none =>
        refine Or.inl ⟨rfl, ?_⟩
        cases h2 : lk "type" kvs with
        | none =>
          exfalso
          cases h3 : (["anyOf", "oneOf", "allOf", "not", "if"].any
              fun k => (lk k kvs).isSome) <;>
            simp [type_to_md, Except.isOk, Except.toBool, h1, h2, h3] at hfail
        | some v =>
          cases v with
          | str s => simp [type_to_md, Except.isOk, Except.toBool, h1, h2] at hfail
          | arr xs => simp [type_to_md, Except.isOk, Except.toBool, h1, h2] at hfail
          | null =>
            exfalso
            cases h3 : (["anyOf", "oneOf", "allOf", "not", "if"].any
                fun k => (lk k kvs).isSome) <;>
              simp [type_to_md, Except.isOk, Except.toBool, h1, h2, h3] at hfail
          | bool b =>
            exact ⟨.bool b, rfl, fun s h => JSON.noConfusion h,
              fun xs h => JSON.noConfusion h, fun h => JSON.noConfusion h⟩
          | num n =>
            exact ⟨.num n, rfl, fun s h => JSON.noConfusion h,
              fun xs h => JSON.noConfusion h, fun h => JSON.noConfusion h⟩
          | obj w =>
            exact ⟨.obj w, rfl, fun s h => JSON.noConfusion h,
              fun xs h => JSON.noConfusion h, fun h => JSON.noConfusion h⟩
    · intro hcond
      rcases hcond with ⟨h1, v, h2, hs, ha, hn⟩ | ⟨r, h1, h2⟩
      · cases v with
        | str s => exact absurd rfl (hs s)
        | arr xs => exact absurd rfl (ha xs)
        | null => exact absurd rfl hn
        | bool b => simp [type_to_md, Except.isOk, Except.toBool, h1, h2]
        | num n => simp [type_to_md, Except.isOk, Except.toBool, h1, h2]
        | obj w => simp [type_to_md, Except.isOk, Except.toBool, h1, h2]
      · simp [type_to_md, Except.isOk, Except.toBool, h1, h2]
  · intro kvs r n h1 h2
    simp [type_to_md, h1, h2]
  · intro kvs t h1 h2
    simp [type_to_md, h1, h2]
  · intro kvs xs h1 h2
    simp [type_to_md, h1, h2]
  · intro kvs h1 h2 h3
    simp [type_to_md, h1, h2, h3]
  · intro kvs h1 h2 h3
    simp [type_to_md, h1, h2, h3]

/-- Witness for C5 at concrete nodes, covering the spec's examples and
an unsupported `type` value. -/
theorem type_to_md_spec_witness :
    type_to_md (fun s => s) (.obj (.cons "type" (.str "string") .nil)) =
      .ok ("`string`", true) ∧
    type_to_md (fun s => s) (.obj .nil) = .ok ("`any`", true) ∧
    type_to_md (fun s => s) (.obj (.cons "anyOf" (.arr .nil) .nil)) = .ok ("`complex`", true) ∧
    (type_to_md (fun s => s) (.obj (.cons "type" (.bool true) .nil))).isOk = false ∧
    type_to_md (fun s => s) (.obj (.cons "$ref" (.str "c.yaml#/d/Foo") .nil)) =
      .ok ("[`Foo`](#-c.yaml#/d/Foo)", true) := by
  refine ⟨?_, ?_, ?_, ?_, ?_⟩
  · exact (type_to_md_spec (fun s => s)).2.2.1 (.cons "type" (.str "string") .nil) "string"
      rfl rfl
  · exact (type_to_md_spec (fun s => s)).2.2.2.2.2 .nil rfl rfl (by decide)
  · exact (type_to_md_spec (fun s => s)).2.2.2.2.1 (.cons "anyOf" (.arr .nil) .nil)
      rfl rfl (by decide)
  · exact ((type_to_md_spec (fun s => s)).1 (.cons "type" (.bool true) .nil)
      (fun v h => Option.noConfusion h)).mpr
      (Or.inl ⟨rfl, .bool true, rfl, fun s h => JSON.noConfusion h,
        fun xs h => JSON.noConfusion h, fun h => JSON.noConfusion h⟩)
  · exact (type_to_md_spec (fun s => s)).2.1 (.cons "$ref" (.str "c.yaml#/d/Foo") .nil)
      "c.yaml#/d/Foo" "Foo" rfl rfl

/-- C7 counterexample: the claim requires the combined length to be
*strictly below* the 50-character threshold for the fully-inlined form,
but the source uses `<=`: two single-line 25-character examples have
combined length exactly 50, the claim predicts the block-list form with
flag `False`, yet the code returns the inlined comma-list with flag
`True`. -/
theorem examples_to_md_counterexample :
    (examples_to_md (fun j => match j with | .str s => s | _ => "")
      (.obj (.cons "examples"
        (.arr (.cons (.str "aaaaaaaaaaaaaaaaaaaaaaaaa")
          (.cons (.str "bbbbbbbbbbbbbbbbbbbbbbbbb") .nil))) .nil))).2 = true ∧
    "aaaaaaaaaaaaaaaaaaaaaaaaa".length + "bbbbbbbbbbbbbbbbbbbbbbbbb".length = 50 := by
  constructor
  · decide
  · decide

/-- C7 (amended): for a node whose `examples` value is a sequence,
`examples_to_md` returns the inlined comma-separated code list with flag
`True` **iff** every serialized example is individually inline-eligible
and their combined length is at most the 50-character threshold (the
source compares with `<=`, not strictly); if all are individually
eligible but the combined length exceeds the threshold it returns the
block-level bulleted code list with flag `False`; if any serialized
example spans multiple lines it returns one fenced code block per
example, joined by newlines, with flag `False`. -/
theorem examples_to_md_spec (ser : JSON → String) :
    ∀ (kvs : JObj) (exs : JArr), lk "examples" kvs = some (.arr exs) →
    ((examples_to_md ser (.obj kvs) = (some (comma_list (exs.toList.map ser) true), true) ↔
      (exs.toList.map ser).all text_can_be_inline = true ∧
        ((exs.toList.map ser).map String.length).sum ≤ INLINE_MAX_LINE_LENGTH)
     ∧ ((exs.toList.map ser).all text_can_be_inline = true →
        ¬ ((exs.toList.map ser).map String.length).sum ≤ INLINE_MAX_LINE_LENGTH →
        examples_to_md ser (.obj kvs) = (some (normal_list (exs.toList.map ser)), false))
     ∧ ((∃ t ∈ exs.toList.map ser, t.toList.contains '\n' = true) →
        examples_to_md ser (.obj kvs) =
          (some (String.intercalate "\n" ((exs.toList.map ser).map code_block)), false))) := by
  intro kvs exs h
  have hmm : (exs.toList.map ser).map String.length = exs.toList.map (String.length ∘ ser) :=
    List.map_map _ _ _
  refine ⟨?_, ?_, ?_⟩
  · constructor
    · intro heq
      cases ha : (exs.toList.map ser).all text_can_be_inline with
      | false => simp [examples_to_md, h, ha] at heq
      | true =>
        cases hts : decide ((exs.toList.map (String.length ∘ ser)).sum ≤
            INLINE_MAX_LINE_LENGTH) with
        | false => simp [examples_to_md, h, ha, hts] at heq
        | true =>
          refine ⟨rfl, ?_⟩
          rw [hmm]
          exact of_decide_eq_true hts
    · intro hc
      have hc2 := hc.2
      rw [hmm] at hc2
      have hts : decide ((exs.toList.map (String.length ∘ ser)).sum ≤
          INLINE_MAX_LINE_LENGTH) = true := decide_eq_true hc2
      simp [examples_to_md, h, hc.1, hts]
  · intro ha ht
    rw [hmm] at ht
    have hts : decide ((exs.toList.map (String.length ∘ ser)).sum ≤
        INLINE_MAX_LINE_LENGTH) = false := decide_eq_false ht
    simp [examples_to_md, h, ha, hts]
  · rintro ⟨t, htm, hnl⟩
    have hmem : '\n' ∈ t.data := by simpa [String.toList] using hnl
    have ha : (exs.toList.map ser).all text_can_be_inline = false := by
      rw [List.all_eq_false]
      exact ⟨t, htm, by simp [text_can_be_inline, hmem]⟩
    simp [examples_to_md, h, ha]

/-- Witness for C7: a short single example inlines; a two-line example
forces the fenced-code-block form. -/
theorem examples_to_md_spec_witness :
    examples_to_md (fun j => match j with | .str s => s | _ => "")
      (.obj (.cons "examples" (.arr (.cons (.str "abc") .nil)) .nil)) =
      (some "`abc`", true) ∧
    examples_to_md (fun j => match j with | .str s => s | _ => "")
      (.obj (.cons "examples" (.arr (.cons (.str "a\nb") .nil)) .nil)) =
      (some "```\na\nb\n```", false) := by
  constructor
  · exact ((examples_to_md_spec (fun j => match j with | .str s => s | _ => "")
      (.cons "examples" (.arr (.cons (.str "abc") .nil)) .nil)
      (.cons (.str "abc") .nil) rfl).1).mpr (by decide)
  · exact (examples_to_md_spec (fun j => match j with | .str s => s | _ => "")
      (.cons "examples" (.arr (.cons (.str "a\nb") .nil)) .nil)
      (.cons (.str "a\nb") .nil) rfl).2.2 ⟨"a\nb", by decide, by decide⟩

/-- C8 counterexample: the claim says every present key among
`if`/`then`/`else` is rendered, so a node with `if` and `else` but no
`then` should produce tokens for both; but the source `break`s at the
missing `then`, and the output mentions only `if` — the substring
`else` does not occur in it. -/
theorem if_to_md_counterexample :
    if_to_md (fun s => s)
      (.obj (.cons "if" (.obj (.cons "type" (.str "object") .nil))
        (.cons "else" (.obj (.cons "type" (.str "string") .nil)) .nil))) "p" =
      .ok (some "if [`if`](#-p-if)", true) ∧
    ¬ ("else".toList <:+: "if [`if`](#-p-if)".toList) := by
  constructor
  · rfl
  · decide

/-- C8 (amended): `if_to_md` visits `if`, `then`, `else` in that fixed
order but stops at the first absent key: it emits the keyword label plus
a reference-or-section link for each key of the longest present prefix
of `(if, then, else)`, joining all emitted tokens with single spaces —
in particular a node with `if` and `else` but no `then` yields only the
`if` tokens — and returns `(absent, False)` for a node without `if`. -/
theorem if_to_md_spec (slug : String → String) (fullpath : String) :
    (∀ kvs : JObj, lk "if" kvs = none →
      if_to_md slug (.obj kvs) fullpath = .ok (none, false))
    ∧ (∀ kvs s1 t1, lk "if" kvs = some s1 → lk "then" kvs = none →
      if_key_tokens slug fullpath "" "" "if" s1 = .ok t1 →
      if_to_md slug (.obj kvs) fullpath = .ok (some (String.intercalate " " t1), true))
    ∧ (∀ kvs s1 s2 t1 t2, lk "if" kvs = some s1 → lk "then" kvs = some s2 →
      lk "else" kvs = none →
      if_key_tokens slug fullpath "" "" "if" s1 = .ok t1 →
      if_key_tokens slug fullpath "" "" "then" s2 = .ok t2 →
      if_to_md slug (.obj kvs) fullpath =
        .ok (some (String.intercalate " " (t1 ++ t2)), true))
    ∧ (∀ kvs s1 s2 s3 t1 t2 t3, lk "if" kvs = some s1 → lk "then" kvs = some s2 →
      lk "else" kvs = some s3 →
      if_key_tokens slug fullpath "" "" "if" s1 = .ok t1 →
      if_key_tokens slug fullpath "" "" "then" s2 = .ok t2 →
      if_key_tokens slug fullpath "" "" "else" s3 = .ok t3 →
      if_to_md slug (.obj kvs) fullpath =
        .ok (some (String.intercalate " " (t1 ++ t2 ++ t3)), true)) := by
  refine ⟨?_, ?_, ?_, ?_⟩
  · intro kvs h1
    simp [if_to_md, h1]
  · intro kvs s1 t1 h1 h2 ht1
    simp [if_to_md, h1, h2, ht1, Except.bind]
    rfl
  · intro kvs s1 s2 t1 t2 h1 h2 h3 ht1 ht2
    simp [if_to_md, h1, h2, h3, ht1, ht2, Except.bind]
    rfl
  · intro kvs s1 s2 s3 t1 t2 t3 h1 h2 h3 ht1 ht2 ht3
    simp [if_to_md, h1, h2, h3, ht1, ht2, ht3, Except.bind]
    rfl

/-- Witness for C8: a node with `if` and `else` but no `then` yields
only the `if` tokens; a node without `if` yields the absent result. -/
theorem if_to_md_spec_witness :
    if_to_md (fun s => s)
      (.obj (.cons "if" (.obj .nil) (.cons "else" (.obj .nil) .nil))) "p" =
      .ok (some "if [`if`](#-p-if)", true) ∧
    if_to_md (fun s => s) (.obj (.cons "then" (.obj .nil) .nil)) "p" = .ok (none, false) := by
  constructor
  · exact (if_to_md_spec (fun s => s) "p").2.1
      (.cons "if" (.obj .nil) (.cons "else" (.obj .nil) .nil)) (.obj .nil)
      ["if", "[`if`](#-p-if)"] rfl rfl rfl
  · exact (if_to_md_spec (fun s => s) "p").1 (.cons "then" (.obj .nil) .nil) rfl
